import Mathlib

/-!
Shallow embedding of the TF-IDF task-inference engine of `src/summarize.ts`
(timesheet-helpers): the tokenizer (`extract_words`), the training phase over
labeled rows (document frequency, total occurrence, per-task co-occurrence,
IDF scores), and the inference engine producing a task probability
distribution.

Modelling conventions:
* JavaScript `Map`s are modelled as insertion-ordered association lists;
  `mapGet`/`mapSet` mirror `Map.get`/`Map.set` (update in place, append new
  keys at the end).
* The one non-rational operation, `Math.log`, is kept abstract as a parameter
  `log : ℚ → ℚ`; theorems that need a property of the real logarithm
  (nonnegativity on `[1, ∞)`, positivity at 2) take it as a hypothesis.
* The non-null assertion `word_entries.get(word)!` in the training loop is
  modelled by making the second counting pass `Option`-valued: `none` models
  the `TypeError` the assertion would mask.
-/

namespace Timesheet

/-- JS `Map` lookup (`Map.get`): the first binding of the key, if any. -/
def mapGet {α : Type} : List (String × α) → String → Option α
  | [], _ => none
  | (k', v) :: rest, k => if k' = k then some v else mapGet rest k

/-- JS `Map.set`: update the first binding in place, else append at the end. -/
def mapSet {α : Type} : List (String × α) → String → α → List (String × α)
  | [], k, v => [(k, v)]
  | (k', v') :: rest, k, v =>
    if k' = k then (k, v) :: rest else (k', v') :: mapSet rest k v

/-- Whitespace characters matched by `\s` in `remark.split(/\s+/)`:
space, tab, line feed, vertical tab, form feed, carriage return. -/
def isSpace (c : Char) : Bool :=
  c == ' ' || c == '\t' || c == '\n' || c == '\r' ||
    c == Char.ofNat 11 || c == Char.ofNat 12

def splitWsAux : List Char → List Char → List (List Char)
  | [], acc => if acc = [] then [] else [acc.reverse]
  | c :: cs, acc =>
    if isSpace c then
      if acc = [] then splitWsAux cs [] else acc.reverse :: splitWsAux cs []
    else splitWsAux cs (c :: acc)

/-- The split `remark.split(/\s+/)` restricted to its non-empty fragments; the empty
fragments the JS split can produce (leading whitespace, empty input) are
dropped by the `word.length > 0` filter downstream, so only the non-empty
fragments are observable. -/
def splitWs (s : List Char) : List (List Char) := splitWsAux s []

/-- The punctuation string `'()-.,?'` of the source. -/
def symbols : List Char := ['(', ')', '-', '.', ',', '?']

/-- The call `word.replaceAll(symbol, '')` for one character: delete every occurrence. -/
def replaceAllChar (w : String) (c : Char) : String := ⟨w.data.filter (· != c)⟩

/-- The stop-word list `skip_words` of the source (the source lists `of`
twice; membership is unaffected). -/
def skip_words : List String :=
  ["is", "an", "the", "and", "or", "not", "of", "on", "of", "to"]

/-- The source's `extract_words`: split on whitespace runs, delete each symbol
from every word (one `map` per symbol, as in the source's loop over
`symbols`), then keep the words that are non-empty and not stop words. -/
def extract_words (remark : String) : List String :=
  let words := (splitWs remark.data).map (fun l => String.mk l)
  let words := symbols.foldl (fun ws c => ws.map (fun w => replaceAllChar w c)) words
  words.filter (fun w => decide (0 < w.length) && !(skip_words.contains w))

/-- The tokenizer as the specification words it: split on whitespace runs,
delete every occurrence of each punctuation character from each token, drop
tokens that became empty, drop stop-word tokens, preserving input order and
multiplicity. -/
def tokenize_spec (remark : String) : List String :=
  (((splitWs remark.data).map
      (fun l => String.mk (l.filter (fun c => !(symbols.contains c))))).filter
    (fun w => decide (w ≠ ""))).filter (fun w => !(skip_words.contains w))

/-- A word's entry in the model (`type Word` of the source). -/
structure Word where
  word : String
  total_occurrence : Nat
  document_frequency : Nat
  tasks : List (String × Nat)
  idf_score : Option ℚ
deriving DecidableEq

/-- An input row; `Task` and `Remark` default to `''` when missing. -/
structure Row where
  Task : String
  Remark : String
deriving DecidableEq

/-- The model state: `total_remarks` and the `word_entries` table. -/
structure TrainState where
  total_remarks : Nat
  word_entries : List (String × Word)
deriving DecidableEq

/-- Zero-initialised entry created on first sight of a word. -/
def newWord (w : String) : Word := ⟨w, 0, 0, [], none⟩

/-- First-pass step: `word_entry.document_frequency++`. -/
def bumpDF (e : Word) : Word :=
  { e with document_frequency := e.document_frequency + 1 }

/-- The set `new Set(words)` in iteration order: first occurrences, in input order. -/
def uniqueWords (ws : List String) : List String :=
  ws.foldl (fun acc w => if w ∈ acc then acc else acc ++ [w]) []

/-- First pass over one remark: create the entry if absent, then increment its
document frequency, for each unique word. -/
def dfStep (t : List (String × Word)) (w : String) : List (String × Word) :=
  mapSet t w (bumpDF ((mapGet t w).getD (newWord w)))

def dfPass (t : List (String × Word)) (uws : List String) : List (String × Word) :=
  uws.foldl dfStep t

/-- Second-pass body: increment `total_occurrence` and the task's
co-occurrence count. -/
def bumpOcc (task : String) (e : Word) : Word :=
  { e with
    total_occurrence := e.total_occurrence + 1,
    tasks := mapSet e.tasks task ((mapGet e.tasks task).getD 0 + 1) }

/-- Second pass, `Option`-valued: `word_entries.get(word)!` with a missing
entry models the `TypeError` the non-null assertion would mask. -/
def occStep (task : String) (t : Option (List (String × Word))) (w : String) :
    Option (List (String × Word)) :=
  match t with
  | none => none
  | some tb =>
    match mapGet tb w with
    | none => none
    | some e => some (mapSet tb w (bumpOcc task e))

def occPass (task : String) (t : List (String × Word)) (ws : List String) :
    Option (List (String × Word)) :=
  ws.foldl (occStep task) (some t)

/-- One training-loop iteration (`for (let row of rows)`): skip unlabeled
rows, else count the remark and run both passes. -/
def trainRow (st : TrainState) (row : Row) : Option TrainState :=
  if row.Task = "" then some st
  else
    let words := extract_words row.Remark
    (occPass row.Task (dfPass st.word_entries (uniqueWords words)) words).map
      (fun t => ⟨st.total_remarks + 1, t⟩)

def trainLoop : TrainState → List Row → Option TrainState
  | st, [] => some st
  | st, r :: rs =>
    match trainRow st r with
    | none => none
    | some st' => trainLoop st' rs

/-- The assignment `entry.idf_score = Math.log(total_remarks / entry.document_frequency)` for
every entry, with `Math.log` abstracted as `log`. -/
def computeIdf (log : ℚ → ℚ) (N : Nat) (t : List (String × Word)) :
    List (String × Word) :=
  t.map (fun p => (p.1,
    { p.2 with
      idf_score := some (log ((N : ℚ) / (p.2.document_frequency : ℚ))) }))

/-- The whole training phase: the loop over all rows, then the IDF pass. -/
def train (log : ℚ → ℚ) (rows : List Row) : Option TrainState :=
  (trainLoop ⟨0, []⟩ rows).map
    (fun st => ⟨st.total_remarks, computeIdf log st.total_remarks st.word_entries⟩)

/-- Inference STEP 1: word frequencies within the remark (`wordFreq`). -/
def wordFreqOf (ws : List String) : List (String × Nat) :=
  ws.foldl (fun m w => mapSet m w ((mapGet m w).getD 0 + 1)) []

/-- Inference STEP 2 body for one distinct word: unknown words are skipped,
otherwise `tfidf * coOccurrenceCount` is added to every associated task's
score.  Iterating the `(word, freq)` pairs is the source's iteration over
`wordFreq.keys()` followed by `wordFreq.get(word)!`, which is always defined
for a key. -/
def scoreWord (table : List (String × Word)) (totalWordsInRemark : Nat)
    (scores : List (String × ℚ)) (wf : String × Nat) : List (String × ℚ) :=
  match mapGet table wf.1 with
  | none => scores
  | some entry =>
    -- `tf = freq / totalWordsInRemark`, `idf = wordEntry.idf_score || 0`,
    -- `tfidf = tf * idf`, inlined below.
    entry.tasks.foldl
      (fun sc p => mapSet sc p.1 ((mapGet sc p.1).getD 0 +
        (wf.2 : ℚ) / (totalWordsInRemark : ℚ) * entry.idf_score.getD 0 *
          (p.2 : ℚ)))
      scores

def taskScoresOf (table : List (String × Word)) (totalWordsInRemark : Nat)
    (wordFreq : List (String × Nat)) : List (String × ℚ) :=
  wordFreq.foldl (scoreWord table totalWordsInRemark) []

/-- Folding `+` over the values of a score table — the summation the source
uses both for `totalScore` and for `totalProbability`. -/
def sumScores (l : List (String × ℚ)) : ℚ := l.foldl (fun acc p => acc + p.2) 0

/-- Inference STEPS 1–3: tokenize, early-out on an empty token list, score,
normalize raw scores into probabilities; empty result when the total score is
not positive.  The source's local consts (`words`, `wordFreq`, `taskScores`,
`totalScore`) are inlined. -/
def infer (model : TrainState) (remark : String) : List (String × ℚ) :=
  if extract_words remark = [] then []
  else
    if 0 < sumScores (taskScoresOf model.word_entries
        (extract_words remark).length (wordFreqOf (extract_words remark))) then
      (taskScoresOf model.word_entries (extract_words remark).length
          (wordFreqOf (extract_words remark))).map
        (fun p => (p.1, p.2 / sumScores (taskScoresOf model.word_entries
          (extract_words remark).length (wordFreqOf (extract_words remark)))))
    else []

/-- The second normalization pass, as its loop body intends: divide every
probability by `totalProbability`.  (In the source the loop is
`for (let taskName in taskProbabilities)`; a `for..in` over a `Map` iterates
no keys, so the source's pass is literally the identity.  This definition
models the per-key body — the strongest reading of the pass.) -/
def secondNormalize (d : List (String × ℚ)) : List (String × ℚ) :=
  if 0 < sumScores d then d.map (fun p => (p.1, p.2 / sumScores d))
  else d

/-- A labeled row whose tokenized remark contains `w`. -/
def rowHasWord (w : String) (r : Row) : Bool :=
  decide (r.Task ≠ "") && decide (w ∈ extract_words r.Remark)

/-- Number of labeled rows whose tokenized remark contains `w`. -/
def dfCount (w : String) (rows : List Row) : Nat := rows.countP (rowHasWord w)

/-- Total number of occurrences of `w` across labeled remarks' token lists. -/
def totCount (w : String) (rows : List Row) : Nat :=
  (rows.map
    (fun r => if r.Task ≠ "" then (extract_words r.Remark).count w else 0)).sum

/-- Number of labeled rows. -/
def labeledCount (rows : List Row) : Nat :=
  rows.countP (fun r => decide (r.Task ≠ ""))

/-- Total variant of the second-pass step: skip a missing entry (unreachable
during training, where the first pass has inserted every word). -/
def occStepT (task : String) (t : List (String × Word)) (w : String) :
    List (String × Word) :=
  match mapGet t w with
  | none => t
  | some e => mapSet t w (bumpOcc task e)

def occPassT (task : String) (t : List (String × Word)) (ws : List String) :
    List (String × Word) :=
  ws.foldl (occStepT task) t

/-- Total description of one training-loop iteration (shown below to agree
with `trainRow`). -/
def trainRowT (st : TrainState) (row : Row) : TrainState :=
  if row.Task = "" then st
  else
    let words := extract_words row.Remark
    ⟨st.total_remarks + 1,
     occPassT row.Task (dfPass st.word_entries (uniqueWords words)) words⟩

/-- Iterated application of `bumpOcc` (`n` times), in fold order. -/
def bumpOccN (task : String) : Nat → Word → Word
  | 0, e => e
  | n + 1, e => bumpOccN task n (bumpOcc task e)

/-! ### Association-list lemmas -/

theorem mapGet_mapSet_self {α : Type} (m : List (String × α)) (k : String) (v : α) :
    mapGet (mapSet m k v) k = some v := by
  induction m with
  | nil => simp [mapGet, mapSet]
  | cons p rest ih =>
    obtain ⟨k', v'⟩ := p
    by_cases h : k' = k
    · simp [mapGet, mapSet, h]
    · simp [mapGet, mapSet, h, ih]

theorem mapGet_mapSet_ne {α : Type} (m : List (String × α)) {k u : String} (v : α)
    (h : u ≠ k) : mapGet (mapSet m k v) u = mapGet m u := by
  induction m with
  | nil =>
    simp only [mapSet, mapGet]
    rw [if_neg (fun hh : k = u => h hh.symm)]
  | cons p rest ih =>
    obtain ⟨k', v'⟩ := p
    by_cases hk : k' = k
    · subst hk
      have h' : ¬ k' = u := fun hh => h hh.symm
      simp only [mapSet, if_pos rfl, mapGet, if_neg h']
    · simp only [mapSet, if_neg hk, mapGet]
      by_cases hu : k' = u
      · rw [if_pos hu, if_pos hu]
      · rw [if_neg hu, if_neg hu, ih]

theorem mapGet_mem {α : Type} {m : List (String × α)} {k : String} {v : α}
    (h : mapGet m k = some v) : (k, v) ∈ m := by
  induction m with
  | nil => simp [mapGet] at h
  | cons p rest ih =>
    obtain ⟨k', v'⟩ := p
    by_cases hk : k' = k
    · subst hk
      simp [mapGet] at h
      simp [h]
    · simp [mapGet, hk] at h
      exact List.mem_cons_of_mem _ (ih h)

theorem mem_mapSet {α : Type} {m : List (String × α)} {k : String} {v : α}
    {p : String × α} (h : p ∈ mapSet m k v) : p = (k, v) ∨ p ∈ m := by
  induction m with
  | nil => simp [mapSet] at h; simp [h]
  | cons q rest ih =>
    obtain ⟨k', v'⟩ := q
    by_cases hk : k' = k
    · simp [mapSet, hk] at h
      rcases h with h | h
      · exact Or.inl h
      · exact Or.inr (List.mem_cons_of_mem _ h)
    · simp [mapSet, hk] at h
      rcases h with h | h
      · exact Or.inr (by simp [h])
      · rcases ih h with h' | h'
        · exact Or.inl h'
        · exact Or.inr (List.mem_cons_of_mem _ h')

theorem isSome_mapGet_mapSet {α : Type} (m : List (String × α)) (k u : String)
    (v : α) :
    (mapGet (mapSet m k v) u).isSome ↔ u = k ∨ (mapGet m u).isSome := by
  by_cases h : u = k
  · subst h; simp [mapGet_mapSet_self]
  · simp [mapGet_mapSet_ne m v h, h]

/-! ### `uniqueWords` lemmas -/

theorem mem_foldl_uniqueWords (ws : List String) :
    ∀ (acc : List String) (w : String),
      w ∈ ws.foldl (fun acc w => if w ∈ acc then acc else acc ++ [w]) acc ↔
        w ∈ acc ∨ w ∈ ws := by
  induction ws with
  | nil => simp
  | cons u rest ih =>
    intro acc w
    by_cases hu : u ∈ acc
    · simp only [List.foldl_cons, if_pos hu, ih]
      constructor
      · rintro (h | h)
        · exact Or.inl h
        · exact Or.inr (List.mem_cons_of_mem _ h)
      · rintro (h | h)
        · exact Or.inl h
        · rcases List.mem_cons.mp h with rfl | h
          · exact Or.inl hu
          · exact Or.inr h
    · simp only [List.foldl_cons, if_neg hu, ih]
      simp only [List.mem_append, List.mem_singleton, List.mem_cons]
      tauto

theorem mem_uniqueWords (ws : List String) (w : String) :
    w ∈ uniqueWords ws ↔ w ∈ ws := by
  unfold uniqueWords
  rw [mem_foldl_uniqueWords]
  simp

theorem nodup_foldl_uniqueWords (ws : List String) :
    ∀ acc : List String, acc.Nodup →
      (ws.foldl (fun acc w => if w ∈ acc then acc else acc ++ [w]) acc).Nodup := by
  induction ws with
  | nil => intro acc h; simpa using h
  | cons u rest ih =>
    intro acc h
    by_cases hu : u ∈ acc
    · simpa [List.foldl_cons, if_pos hu] using ih acc h
    · rw [List.foldl_cons, if_neg hu]
      exact ih (acc ++ [u]) (by simp [List.nodup_append, h, hu])

theorem nodup_uniqueWords (ws : List String) : (uniqueWords ws).Nodup := by
  unfold uniqueWords
  exact nodup_foldl_uniqueWords ws [] List.nodup_nil

/-! ### First pass: pointwise characterization -/

theorem dfPass_get (uws : List String) :
    ∀ t : List (String × Word), uws.Nodup → ∀ w,
      mapGet (dfPass t uws) w =
        if w ∈ uws then some (bumpDF ((mapGet t w).getD (newWord w)))
        else mapGet t w := by
  induction uws with
  | nil => intro t _ w; simp [dfPass]
  | cons u rest ih =>
    intro t hnd w
    obtain ⟨hu, hrest⟩ := List.nodup_cons.mp hnd
    have hfold : dfPass t (u :: rest) = dfPass (dfStep t u) rest := rfl
    rw [hfold, ih _ hrest w]
    by_cases hw : w ∈ rest
    · have hwu : w ≠ u := fun hh => hu (hh ▸ hw)
      rw [if_pos hw, if_pos (List.mem_cons_of_mem _ hw)]
      rw [dfStep, mapGet_mapSet_ne _ _ hwu]
    · rw [if_neg hw]
      by_cases hwu : w = u
      · subst hwu
        rw [if_pos (List.mem_cons_self _ _), dfStep, mapGet_mapSet_self]
      · rw [if_neg (by simp [hwu, hw]), dfStep, mapGet_mapSet_ne _ _ hwu]

/-! ### Second pass: pointwise characterization and totality -/

theorem occStepT_get_ne (task : String) (t : List (String × Word)) {u w : String}
    (h : w ≠ u) : mapGet (occStepT task t u) w = mapGet t w := by
  unfold occStepT
  cases hg : mapGet t u with
  | none => rfl
  | some e => rw [mapGet_mapSet_ne _ _ h]

theorem occStepT_get_self (task : String) (t : List (String × Word)) (w : String) :
    mapGet (occStepT task t w) w = (mapGet t w).map (bumpOcc task) := by
  unfold occStepT
  cases hg : mapGet t w with
  | none => simp [hg]
  | some e => simp [mapGet_mapSet_self]

theorem occPassT_get (task : String) (ws : List String) :
    ∀ (t : List (String × Word)) (w : String),
      mapGet (occPassT task t ws) w =
        (mapGet t w).map (bumpOccN task (ws.count w)) := by
  induction ws with
  | nil =>
    intro t w
    show mapGet t w = (mapGet t w).map (bumpOccN task 0)
    cases mapGet t w <;> rfl
  | cons u rest ih =>
    intro t w
    have hfold : occPassT task t (u :: rest) = occPassT task (occStepT task t u) rest := rfl
    rw [hfold, ih]
    by_cases hw : w = u
    · subst hw
      rw [occStepT_get_self, List.count_cons_self]
      cases mapGet t w <;> rfl
    · rw [occStepT_get_ne _ _ hw, List.count_cons_of_ne hw]

theorem occPass_eq_total (task : String) (ws : List String) :
    ∀ t : List (String × Word), (∀ w ∈ ws, (mapGet t w).isSome) →
      occPass task t ws = some (occPassT task t ws) := by
  induction ws with
  | nil => intro t _; rfl
  | cons u rest ih =>
    intro t h
    obtain ⟨e, he⟩ := Option.isSome_iff_exists.mp (h u (List.mem_cons_self u rest))
    have st1 : occStep task (some t) u = some (occStepT task t u) := by
      simp [occStep, occStepT, he]
    have hfold : occPass task t (u :: rest) =
        rest.foldl (occStep task) (occStep task (some t) u) := rfl
    rw [hfold, st1]
    have h' : ∀ w ∈ rest, (mapGet (occStepT task t u) w).isSome := by
      intro w hw
      by_cases hwu : w = u
      · subst hwu; rw [occStepT_get_self]; simp [he]
      · rw [occStepT_get_ne _ _ hwu]; exact h w (List.mem_cons_of_mem _ hw)
    exact ih (occStepT task t u) h'

/-! ### One training iteration and the whole loop -/

theorem trainRow_eq (st : TrainState) (row : Row) :
    trainRow st row = some (trainRowT st row) := by
  unfold trainRow trainRowT
  by_cases h : row.Task = ""
  · rw [if_pos h, if_pos h]
  · rw [if_neg h, if_neg h]
    have hpres : ∀ w ∈ extract_words row.Remark,
        (mapGet (dfPass st.word_entries (uniqueWords (extract_words row.Remark))) w).isSome := by
      intro w hw
      rw [dfPass_get _ _ (nodup_uniqueWords _), if_pos ((mem_uniqueWords _ _).mpr hw)]
      rfl
    show (occPass row.Task
        (dfPass st.word_entries (uniqueWords (extract_words row.Remark)))
        (extract_words row.Remark)).map
          (fun t => (⟨st.total_remarks + 1, t⟩ : TrainState)) =
      some ⟨st.total_remarks + 1,
        occPassT row.Task
          (dfPass st.word_entries (uniqueWords (extract_words row.Remark)))
          (extract_words row.Remark)⟩
    rw [occPass_eq_total _ _ _ hpres]
    rfl

theorem trainLoop_eq (rows : List Row) :
    ∀ st : TrainState, trainLoop st rows = some (rows.foldl trainRowT st) := by
  induction rows with
  | nil => intro st; rfl
  | cons r rs ih =>
    intro st
    simp only [trainLoop, trainRow_eq, List.foldl_cons]
    exact ih (trainRowT st r)

/-- The trained model, described totally. -/
def trainT (log : ℚ → ℚ) (rows : List Row) : TrainState :=
  ⟨(rows.foldl trainRowT ⟨0, []⟩).total_remarks,
   computeIdf log (rows.foldl trainRowT ⟨0, []⟩).total_remarks
     (rows.foldl trainRowT ⟨0, []⟩).word_entries⟩

theorem train_eq (log : ℚ → ℚ) (rows : List Row) :
    train log rows = some (trainT log rows) := by
  unfold train trainT
  rw [trainLoop_eq]
  rfl

/-! ### Field bookkeeping for `bumpOccN`, `bumpDF`, `newWord` -/

theorem bumpOccN_document_frequency (task : String) (n : Nat) :
    ∀ e : Word, (bumpOccN task n e).document_frequency = e.document_frequency := by
  induction n with
  | zero => intro e; rfl
  | succ n ih => intro e; rw [bumpOccN, ih]; rfl

theorem bumpOccN_total_occurrence (task : String) (n : Nat) :
    ∀ e : Word, (bumpOccN task n e).total_occurrence = e.total_occurrence + n := by
  induction n with
  | zero => intro e; rfl
  | succ n ih =>
    intro e
    rw [bumpOccN, ih]
    show e.total_occurrence + 1 + n = e.total_occurrence + (n + 1)
    omega

theorem getD_newWord_df (o : Option Word) (w : String) :
    (o.getD (newWord w)).document_frequency =
      (o.map Word.document_frequency).getD 0 := by
  cases o <;> rfl

theorem getD_newWord_tot (o : Option Word) (w : String) :
    (o.getD (newWord w)).total_occurrence =
      (o.map Word.total_occurrence).getD 0 := by
  cases o <;> rfl

/-! ### Pointwise effect of one training iteration -/

theorem trainRowT_get (st : TrainState) (row : Row) (w : String) :
    mapGet (trainRowT st row).word_entries w =
      if row.Task ≠ "" ∧ w ∈ extract_words row.Remark then
        some (bumpOccN row.Task ((extract_words row.Remark).count w)
          (bumpDF ((mapGet st.word_entries w).getD (newWord w))))
      else mapGet st.word_entries w := by
  unfold trainRowT
  by_cases h : row.Task = ""
  · rw [if_pos h, if_neg (by simp [h])]
  · rw [if_neg h]
    show mapGet (occPassT row.Task
        (dfPass st.word_entries (uniqueWords (extract_words row.Remark)))
        (extract_words row.Remark)) w = _
    rw [occPassT_get, dfPass_get _ _ (nodup_uniqueWords _)]
    by_cases hw : w ∈ extract_words row.Remark
    · rw [if_pos ((mem_uniqueWords _ _).mpr hw), if_pos ⟨h, hw⟩]
      rfl
    · rw [if_neg (fun hc => hw ((mem_uniqueWords _ _).mp hc)),
        if_neg (fun hc => hw hc.2), List.count_eq_zero.mpr hw]
      cases mapGet st.word_entries w <;> rfl

theorem trainRowT_total (st : TrainState) (row : Row) :
    (trainRowT st row).total_remarks =
      st.total_remarks + (if row.Task ≠ "" then 1 else 0) := by
  unfold trainRowT
  by_cases h : row.Task = "" <;> simp [h]

/-! ### Counting over the whole training fold -/

theorem foldl_trainRowT_total (rows : List Row) :
    ∀ st : TrainState, (rows.foldl trainRowT st).total_remarks =
      st.total_remarks + labeledCount rows := by
  induction rows with
  | nil => intro st; simp [labeledCount]
  | cons r rs ih =>
    intro st
    rw [List.foldl_cons, ih, trainRowT_total]
    unfold labeledCount
    rw [List.countP_cons]
    by_cases h : r.Task = ""
    · simp [h]
    · simp [h]
      omega

theorem foldl_trainRowT_get (rows : List Row) :
    ∀ (st : TrainState) (w : String),
      ((mapGet (rows.foldl trainRowT st).word_entries w).isSome ↔
        (mapGet st.word_entries w).isSome ∨ 0 < dfCount w rows) ∧
      (∀ e, mapGet (rows.foldl trainRowT st).word_entries w = some e →
        e.document_frequency =
          ((mapGet st.word_entries w).map Word.document_frequency).getD 0 +
            dfCount w rows ∧
        e.total_occurrence =
          ((mapGet st.word_entries w).map Word.total_occurrence).getD 0 +
            totCount w rows) := by
  induction rows with
  | nil =>
    intro st w
    constructor
    · simp [dfCount]
    · intro e he
      simp only [List.foldl_nil] at he
      simp [dfCount, totCount, he]
  | cons r rs ih =>
    intro st w
    rw [List.foldl_cons]
    obtain ⟨ih1, ih2⟩ := ih (trainRowT st r) w
    have hstep := trainRowT_get st r w
    by_cases ht : r.Task = ""
    · -- unlabeled row: no effect on the table, nor on the counts
      rw [if_neg (by simp [ht])] at hstep
      have hdfc : dfCount w (r :: rs) = dfCount w rs := by
        unfold dfCount
        rw [List.countP_cons]
        simp [rowHasWord, ht]
      have htc : totCount w (r :: rs) = totCount w rs := by
        unfold totCount
        simp [ht]
      rw [hdfc, htc]
      constructor
      · rw [ih1, hstep]
      · intro e he
        obtain ⟨h1, h2⟩ := ih2 e he
        rw [hstep] at h1 h2
        exact ⟨h1, h2⟩
    · by_cases hw : w ∈ extract_words r.Remark
      · -- labeled row containing the word: both counters bumped
        rw [if_pos ⟨ht, hw⟩] at hstep
        have hdfc : dfCount w (r :: rs) = dfCount w rs + 1 := by
          unfold dfCount
          rw [List.countP_cons]
          simp [rowHasWord, ht, hw]
        have htc : totCount w (r :: rs) =
            (extract_words r.Remark).count w + totCount w rs := by
          unfold totCount
          simp [ht]
        constructor
        · rw [ih1, hstep, hdfc]
          simp
        · intro e he
          obtain ⟨h1, h2⟩ := ih2 e he
          rw [hstep] at h1 h2
          constructor
          · rw [h1, hdfc]
            simp only [Option.map_some', Option.getD_some,
              bumpOccN_document_frequency]
            show (bumpDF ((mapGet st.word_entries w).getD (newWord w))).document_frequency
                + dfCount w rs = _
            have : (bumpDF ((mapGet st.word_entries w).getD (newWord w))).document_frequency
                = ((mapGet st.word_entries w).getD (newWord w)).document_frequency + 1 := rfl
            rw [this, getD_newWord_df]
            omega
          · rw [h2, htc]
            simp only [Option.map_some', Option.getD_some,
              bumpOccN_total_occurrence]
            have : (bumpDF ((mapGet st.word_entries w).getD (newWord w))).total_occurrence
                = ((mapGet st.word_entries w).getD (newWord w)).total_occurrence := rfl
            rw [this, getD_newWord_tot]
            omega
      · -- labeled row not containing the word: no effect for this word
        rw [if_neg (fun hc => hw hc.2)] at hstep
        have hdfc : dfCount w (r :: rs) = dfCount w rs := by
          unfold dfCount
          rw [List.countP_cons]
          simp [rowHasWord, hw]
        have htc : totCount w (r :: rs) = totCount w rs := by
          unfold totCount
          simp [ht, List.count_eq_zero.mpr hw]
        rw [hdfc, htc]
        constructor
        · rw [ih1, hstep]
        · intro e he
          obtain ⟨h1, h2⟩ := ih2 e he
          rw [hstep] at h1 h2
          exact ⟨h1, h2⟩

/-! ### IDF pass: pointwise characterization -/

theorem computeIdf_get (log : ℚ → ℚ) (N : Nat) (t : List (String × Word)) (w : String) :
    mapGet (computeIdf log N t) w =
      (mapGet t w).map (fun e =>
        { e with
          idf_score := some (log ((N : ℚ) / (e.document_frequency : ℚ))) }) := by
  induction t with
  | nil => rfl
  | cons p rest ih =>
    obtain ⟨k, v⟩ := p
    simp only [computeIdf, List.map_cons] at *
    by_cases hk : k = w
    · simp [mapGet, hk]
    · simp only [mapGet, if_neg hk]
      exact ih

/-! ### Count comparisons -/

theorem dfCount_le_labeledCount (w : String) (rows : List Row) :
    dfCount w rows ≤ labeledCount rows := by
  unfold dfCount labeledCount
  apply List.countP_mono_left
  intro r _ h
  unfold rowHasWord at h
  exact (Bool.and_eq_true _ _ |>.mp h).1

theorem dfCount_le_totCount (w : String) (rows : List Row) :
    dfCount w rows ≤ totCount w rows := by
  induction rows with
  | nil => simp [dfCount, totCount]
  | cons r rs ih =>
    have hcons : totCount w (r :: rs) =
        (if r.Task ≠ "" then (extract_words r.Remark).count w else 0) +
          totCount w rs := by
      unfold totCount
      rw [List.map_cons, List.sum_cons]
    unfold dfCount at ih ⊢
    rw [hcons, List.countP_cons]
    by_cases ht : r.Task = ""
    · have hb : rowHasWord w r = false := by simp [rowHasWord, ht]
      rw [hb, if_neg (by simp [ht])]
      simp
      omega
    · by_cases hw : w ∈ extract_words r.Remark
      · have hpos : 0 < (extract_words r.Remark).count w := List.count_pos_iff.mpr hw
        have hb : rowHasWord w r = true := by simp [rowHasWord, ht, hw]
        rw [hb, if_pos ht]
        simp
        omega
      · have hb : rowHasWord w r = false := by simp [rowHasWord, hw]
        rw [hb, if_pos ht, List.count_eq_zero.mpr hw]
        simp
        omega

/-- Unlabeled rows are skipped by the loop: folding over the labeled rows
alone gives the same state. -/
theorem foldl_trainRowT_filter (rows : List Row) :
    ∀ st : TrainState,
      (rows.filter (fun r => decide (r.Task ≠ ""))).foldl trainRowT st =
        rows.foldl trainRowT st := by
  induction rows with
  | nil => intro st; rfl
  | cons r rs ih =>
    intro st
    by_cases h : r.Task = ""
    · have hid : trainRowT st r = st := by
        unfold trainRowT
        rw [if_pos h]
      have hf : (r :: rs).filter (fun r => decide (r.Task ≠ "")) =
          rs.filter (fun r => decide (r.Task ≠ "")) := by simp [h]
      rw [hf, List.foldl_cons, hid, ih]
    · have hf : (r :: rs).filter (fun r => decide (r.Task ≠ "")) =
          r :: rs.filter (fun r => decide (r.Task ≠ "")) := by simp [h]
      rw [hf, List.foldl_cons, List.foldl_cons, ih]

/-! ### The trained model, described through the counts -/

theorem trainT_total (log : ℚ → ℚ) (rows : List Row) :
    (trainT log rows).total_remarks = labeledCount rows := by
  show (rows.foldl trainRowT ⟨0, []⟩).total_remarks = _
  rw [foldl_trainRowT_total]
  simp

theorem trainT_get (log : ℚ → ℚ) (rows : List Row) (w : String) :
    mapGet (trainT log rows).word_entries w =
      (mapGet (rows.foldl trainRowT ⟨0, []⟩).word_entries w).map (fun e =>
        { e with
          idf_score := some (log ((labeledCount rows : ℚ) /
            (e.document_frequency : ℚ))) }) := by
  show mapGet (computeIdf log (rows.foldl trainRowT ⟨0, []⟩).total_remarks
      (rows.foldl trainRowT ⟨0, []⟩).word_entries) w = _
  rw [computeIdf_get, foldl_trainRowT_total]
  simp

theorem trainT_isSome_iff (log : ℚ → ℚ) (rows : List Row) (w : String) :
    (mapGet (trainT log rows).word_entries w).isSome ↔ 0 < dfCount w rows := by
  rw [trainT_get, Option.isSome_map']
  have := (foldl_trainRowT_get rows ⟨0, []⟩ w).1
  rw [show mapGet ((⟨0, []⟩ : TrainState)).word_entries w = none from rfl] at this
  simpa using this

/-- Every entry of the trained table comes from an entry of the counting fold
whose counters are exactly the brute-force counts over the rows. -/
theorem trainT_stored (log : ℚ → ℚ) (rows : List Row) (w : String) (e : Word)
    (he : mapGet (trainT log rows).word_entries w = some e) :
    ∃ e0, mapGet (rows.foldl trainRowT ⟨0, []⟩).word_entries w = some e0 ∧
      e = { e0 with
        idf_score := some (log ((labeledCount rows : ℚ) /
          (e0.document_frequency : ℚ))) } ∧
      e0.document_frequency = dfCount w rows ∧
      e0.total_occurrence = totCount w rows ∧
      0 < dfCount w rows := by
  have hpos : 0 < dfCount w rows := by
    rw [← trainT_isSome_iff log rows w, he]
    rfl
  rw [trainT_get] at he
  rcases Option.map_eq_some'.mp he with ⟨e0, hg, hfe⟩
  refine ⟨e0, hg, hfe.symm, ?_, ?_, hpos⟩
  · have := ((foldl_trainRowT_get rows ⟨0, []⟩ w).2 e0 hg).1
    simpa [mapGet] using this
  · have := ((foldl_trainRowT_get rows ⟨0, []⟩ w).2 e0 hg).2
    simpa [mapGet] using this

/-! ### Claims about the training phase -/

/-- C10: the word-table lookup in the training loop's second pass is always
defined — the `Option`-valued training (where `none` models the `TypeError`
that `word_entries.get(word)!` would mask) always returns `some`, because the
first pass over the same remark inserts an entry for every element of the
remark's unique-word set before the second pass reads it. -/
theorem train_never_fails (log : ℚ → ℚ) (rows : List Row) :
    (train log rows).isSome := by
  rw [train_eq]
  rfl

/-- C1: after training on any row sequence, every stored word entry's
`document_frequency` equals the number of labeled rows whose tokenized remark
contains that word, and an entry exists exactly for the words occurring in at
least one labeled remark's token list. -/
theorem train_df_correct (log : ℚ → ℚ) (rows : List Row) (m : TrainState)
    (hm : train log rows = some m) (w : String) :
    (∀ e, mapGet m.word_entries w = some e →
        e.document_frequency = dfCount w rows) ∧
    ((mapGet m.word_entries w).isSome ↔
      ∃ r ∈ rows, r.Task ≠ "" ∧ w ∈ extract_words r.Remark) := by
  rw [train_eq] at hm
  obtain rfl : m = trainT log rows := (Option.some.inj hm).symm
  constructor
  · intro e he
    obtain ⟨e0, _, rfl, hdf, _, _⟩ := trainT_stored log rows w e he
    simpa using hdf
  · rw [trainT_isSome_iff]
    unfold dfCount
    rw [List.countP_pos_iff]
    simp [rowHasWord]

/-- C2: after training, every stored word entry has
`idf_score = log(total_labeled_remarks / document_frequency)`; the stored
`document_frequency` is never zero, and a word appearing in exactly one
labeled remark has `idf_score = log(total_labeled_remarks)`. -/
theorem train_idf_correct (log : ℚ → ℚ) (rows : List Row) (m : TrainState)
    (hm : train log rows = some m) (w : String) (e : Word)
    (he : mapGet m.word_entries w = some e) :
    e.idf_score = some (log ((m.total_remarks : ℚ) / (e.document_frequency : ℚ))) ∧
    1 ≤ e.document_frequency ∧
    (e.document_frequency = 1 →
      e.idf_score = some (log (m.total_remarks : ℚ))) := by
  rw [train_eq] at hm
  obtain rfl : m = trainT log rows := (Option.some.inj hm).symm
  obtain ⟨e0, _, rfl, hdf, _, hpos⟩ := trainT_stored log rows w e he
  rw [trainT_total]
  refine ⟨rfl, by simpa [hdf] using hpos, ?_⟩
  intro h1
  have : e0.document_frequency = 1 := by simpa using h1
  simp [this]

/-- C7: after training on any row sequence, `total_remarks` equals the number
of rows with a non-empty task (counting labeled rows whose remark tokenizes to
zero words as well), and rows with an empty task contribute nothing at all:
training on the labeled rows alone yields the same model. -/
theorem train_total_remarks_correct (log : ℚ → ℚ) (rows : List Row)
    (m : TrainState) (hm : train log rows = some m) :
    m.total_remarks = (rows.filter (fun r => decide (r.Task ≠ ""))).length ∧
    train log (rows.filter (fun r => decide (r.Task ≠ ""))) = some m := by
  rw [train_eq] at hm
  obtain rfl : m = trainT log rows := (Option.some.inj hm).symm
  constructor
  · rw [trainT_total]
    unfold labeledCount
    rw [List.countP_eq_length_filter]
  · rw [train_eq]
    unfold trainT
    rw [foldl_trainRowT_filter]

/-- C8: after training on any row sequence, every stored word entry satisfies
`1 ≤ document_frequency ≤ total_occurrence`. -/
theorem train_df_le_occurrence (log : ℚ → ℚ) (rows : List Row) (m : TrainState)
    (hm : train log rows = some m) (w : String) (e : Word)
    (he : mapGet m.word_entries w = some e) :
    1 ≤ e.document_frequency ∧
      e.document_frequency ≤ e.total_occurrence := by
  rw [train_eq] at hm
  obtain rfl : m = trainT log rows := (Option.some.inj hm).symm
  obtain ⟨e0, _, rfl, hdf, htot, hpos⟩ := trainT_stored log rows w e he
  have hle := dfCount_le_totCount w rows
  constructor
  · show 1 ≤ e0.document_frequency
    omega
  · show e0.document_frequency ≤ e0.total_occurrence
    omega

/-! ### Concrete instances for the witnesses -/

/-- A concrete rational stand-in for `Math.log` (`q - 1` is nonnegative on
`[1, ∞)` and positive at `2`, the properties the theorems assume of `ln`). -/
def logW : ℚ → ℚ := fun q => q - 1

def rowsW : List Row :=
  [⟨"t1", "alpha alpha beta"⟩, ⟨"", "gamma"⟩, ⟨"t2", "beta"⟩]

def mW : TrainState := (train logW rowsW).getD ⟨0, []⟩

def eW : Word := (mapGet mW.word_entries "alpha").getD (newWord "alpha")

def eW2 : Word := (mapGet mW.word_entries "beta").getD (newWord "beta")

theorem train_df_correct_witness :
    (∀ e, mapGet mW.word_entries "beta" = some e →
        e.document_frequency = dfCount "beta" rowsW) ∧
    ((mapGet mW.word_entries "beta").isSome ↔
      ∃ r ∈ rowsW, r.Task ≠ "" ∧ "beta" ∈ extract_words r.Remark) :=
  train_df_correct logW rowsW mW (by rfl) "beta"

theorem train_idf_correct_witness :
    eW.idf_score =
        some (logW ((mW.total_remarks : ℚ) / (eW.document_frequency : ℚ))) ∧
    1 ≤ eW.document_frequency ∧
    (eW.document_frequency = 1 →
      eW.idf_score = some (logW (mW.total_remarks : ℚ))) :=
  train_idf_correct logW rowsW mW (by rfl) "alpha" eW (by rfl)

theorem train_total_remarks_correct_witness :
    mW.total_remarks = (rowsW.filter (fun r => decide (r.Task ≠ ""))).length ∧
    train logW (rowsW.filter (fun r => decide (r.Task ≠ ""))) = some mW :=
  train_total_remarks_correct logW rowsW mW (by rfl)

theorem train_df_le_occurrence_witness :
    1 ≤ eW2.document_frequency ∧
      eW2.document_frequency ≤ eW2.total_occurrence :=
  train_df_le_occurrence logW rowsW mW (by rfl) "beta" eW2 (by rfl)

/-! ### The tokenizer agrees with its specification -/

theorem foldl_map_replaceAll (cs : List Char) :
    ∀ ws : List String,
      cs.foldl (fun ws c => ws.map (fun w => replaceAllChar w c)) ws =
        ws.map (fun w => cs.foldl replaceAllChar w) := by
  induction cs with
  | nil =>
    intro ws
    show ws = ws.map (fun w => w)
    rw [List.map_id']
  | cons c rest ih =>
    intro ws
    rw [List.foldl_cons, ih, List.map_map]
    rfl

theorem foldl_replaceAllChar (cs : List Char) :
    ∀ l : List Char,
      cs.foldl replaceAllChar ⟨l⟩ =
        String.mk (l.filter (fun d => !(cs.contains d))) := by
  induction cs with
  | nil =>
    intro l
    show String.mk l = _
    congr 1
    rw [List.filter_congr (q := fun _ => true) (by intro x _; rfl),
      List.filter_true]
  | cons c rest ih =>
    intro l
    rw [List.foldl_cons]
    show rest.foldl replaceAllChar ⟨l.filter (· != c)⟩ = _
    rw [ih]
    congr 1
    rw [List.filter_filter]
    apply List.filter_congr
    intro d _
    by_cases h : d = c <;> simp [h, List.contains_cons]

/-- C4: `extract_words` computes exactly what the specification describes —
split on whitespace runs, delete every occurrence of each of `( ) - . , ?`
from each token, drop tokens that became empty, drop stop-word tokens
(case-sensitive exact match), keeping the survivors in input order with
duplicates preserved. -/
theorem map_foldl_mk (xs : List (List Char)) :
    ((xs.map (fun l => String.mk l)).map
        (fun w => symbols.foldl replaceAllChar w)) =
      xs.map (fun l => String.mk (l.filter (fun c => !(symbols.contains c)))) := by
  rw [List.map_map]
  apply List.map_congr_left
  intro l _
  exact foldl_replaceAllChar symbols l

theorem extract_words_eq_tokenize_spec (remark : String) :
    extract_words remark = tokenize_spec remark := by
  simp only [extract_words, tokenize_spec]
  rw [foldl_map_replaceAll, map_foldl_mk, List.filter_filter]
  apply List.filter_congr
  intro w _
  rw [Bool.and_comm]
  congr 1
  cases w with
  | mk l =>
    cases l with
    | nil => rfl
    | cons c cs => simp [String.length, String.ext_iff]

/-! ### Summation lemmas for score tables -/

theorem foldl_add_eq (l : List (String × ℚ)) :
    ∀ a : ℚ, l.foldl (fun acc p => acc + p.2) a = a + (l.map Prod.snd).sum := by
  induction l with
  | nil => intro a; simp
  | cons p rest ih =>
    intro a
    rw [List.foldl_cons, ih, List.map_cons, List.sum_cons, add_assoc]

theorem sumScores_eq (l : List (String × ℚ)) :
    sumScores l = (l.map Prod.snd).sum := by
  unfold sumScores
  rw [foldl_add_eq, zero_add]

theorem sumScores_map_div (l : List (String × ℚ)) (S : ℚ) :
    sumScores (l.map (fun p => (p.1, p.2 / S))) = sumScores l / S := by
  rw [sumScores_eq, sumScores_eq, List.map_map]
  have hcomp : (Prod.snd ∘ fun p : String × ℚ => (p.1, p.2 / S)) =
      fun p : String × ℚ => p.2 * S⁻¹ := by
    funext p
    simp [div_eq_mul_inv]
  rw [hcomp, List.sum_map_mul_right l Prod.snd S⁻¹, div_eq_mul_inv]

/-- The distribution the inference engine returns is either empty or sums to
exactly `1`. -/
theorem infer_eq_empty_or_sum_one (m : TrainState) (remark : String) :
    infer m remark = [] ∨ sumScores (infer m remark) = 1 := by
  unfold infer
  by_cases hw : extract_words remark = []
  · rw [if_pos hw]
    exact Or.inl rfl
  · rw [if_neg hw]
    by_cases hs : 0 < sumScores (taskScoresOf m.word_entries
        (extract_words remark).length (wordFreqOf (extract_words remark)))
    · rw [if_pos hs]
      right
      rw [sumScores_map_div]
      exact div_self (ne_of_gt hs)
    · rw [if_neg hs]
      exact Or.inl rfl

/-- C6: the second normalization pass changes nothing — the distribution the
first normalization produces is a fixed point of the re-normalization (its
probabilities already sum to exactly `1`, or it is empty).  In the source the
pass is additionally a syntactic no-op (`for..in` over a `Map` iterates no
keys). -/
theorem second_normalize_no_effect (m : TrainState) (remark : String) :
    secondNormalize (infer m remark) = infer m remark := by
  rcases infer_eq_empty_or_sum_one m remark with h | h
  · rw [h]
    rfl
  · unfold secondNormalize
    rw [h, if_pos one_pos]
    simp

/-! ### Nonnegativity of scores for a trained model -/

theorem mapSet_forall {α : Type} {P : α → Prop} {m : List (String × α)}
    (hm : ∀ p ∈ m, P p.2) {k : String} {v : α} (hv : P v) :
    ∀ p ∈ mapSet m k v, P p.2 := by
  intro p hp
  rcases mem_mapSet hp with rfl | hp'
  · exact hv
  · exact hm p hp'

theorem mapGet_getD_nonneg {m : List (String × ℚ)}
    (hm : ∀ p ∈ m, 0 ≤ p.2) (k : String) : 0 ≤ (mapGet m k).getD 0 := by
  cases hg : mapGet m k with
  | none => simp
  | some v => simpa using hm (k, v) (mapGet_mem hg)

theorem foldl_tasks_nonneg (tfidf : ℚ) (htfidf : 0 ≤ tfidf)
    (tasks : List (String × Nat)) :
    ∀ sc : List (String × ℚ), (∀ p ∈ sc, 0 ≤ p.2) →
      ∀ p ∈ tasks.foldl (fun sc q =>
          mapSet sc q.1 ((mapGet sc q.1).getD 0 + tfidf * (q.2 : ℚ))) sc,
        0 ≤ p.2 := by
  induction tasks with
  | nil => intro sc hs; exact hs
  | cons q rest ih =>
    intro sc hs
    rw [List.foldl_cons]
    apply ih
    apply mapSet_forall hs
    exact add_nonneg (mapGet_getD_nonneg hs q.1)
      (mul_nonneg htfidf (by positivity))

theorem scoreWord_nonneg (table : List (String × Word)) (total : Nat)
    (htable : ∀ w e, mapGet table w = some e → 0 ≤ e.idf_score.getD 0)
    (scores : List (String × ℚ)) (hs : ∀ p ∈ scores, 0 ≤ p.2)
    (wf : String × Nat) : ∀ p ∈ scoreWord table total scores wf, 0 ≤ p.2 := by
  unfold scoreWord
  cases hg : mapGet table wf.1 with
  | none => exact hs
  | some entry =>
    have hidf := htable _ _ hg
    have htfidf : 0 ≤ (wf.2 : ℚ) / (total : ℚ) * entry.idf_score.getD 0 :=
      mul_nonneg (by positivity) hidf
    exact foldl_tasks_nonneg _ htfidf entry.tasks scores hs

theorem taskScoresOf_nonneg (table : List (String × Word)) (total : Nat)
    (htable : ∀ w e, mapGet table w = some e → 0 ≤ e.idf_score.getD 0)
    (wfs : List (String × Nat)) :
    ∀ p ∈ taskScoresOf table total wfs, 0 ≤ p.2 := by
  unfold taskScoresOf
  have hgen : ∀ start : List (String × ℚ), (∀ p ∈ start, 0 ≤ p.2) →
      ∀ p ∈ wfs.foldl (scoreWord table total) start, 0 ≤ p.2 := by
    induction wfs with
    | nil => intro start hs; exact hs
    | cons wf rest ih =>
      intro start hs
      rw [List.foldl_cons]
      exact ih _ (scoreWord_nonneg table total htable start hs wf)
  exact hgen [] (by simp)

/-- Every entry a trained model stores has a nonnegative IDF score, provided
`log` is nonnegative on `[1, ∞)` (as the real `ln` is). -/
theorem trainT_idf_nonneg (log : ℚ → ℚ)
    (hlog : ∀ q : ℚ, 1 ≤ q → 0 ≤ log q) (rows : List Row) (w : String)
    (e : Word) (he : mapGet (trainT log rows).word_entries w = some e) :
    0 ≤ e.idf_score.getD 0 := by
  obtain ⟨e0, _, rfl, hdf, _, hpos⟩ := trainT_stored log rows w e he
  show 0 ≤ log ((labeledCount rows : ℚ) / (e0.document_frequency : ℚ))
  apply hlog
  have hdfpos : (0 : ℚ) < (e0.document_frequency : ℚ) := by
    rw [hdf]
    exact_mod_cast hpos
  rw [one_le_div hdfpos]
  have hle : e0.document_frequency ≤ labeledCount rows := by
    rw [hdf]
    exact dfCount_le_labeledCount w rows
  exact_mod_cast hle

/-- C3: for a trained model, every probability the inference engine returns is
nonnegative, and whenever the returned distribution is non-empty its
probabilities sum to exactly `1` (exact rational arithmetic). -/
theorem infer_prob_distribution (log : ℚ → ℚ)
    (hlog : ∀ q : ℚ, 1 ≤ q → 0 ≤ log q) (rows : List Row) (m : TrainState)
    (hm : train log rows = some m) (remark : String) :
    (∀ p ∈ infer m remark, 0 ≤ p.2) ∧
    (infer m remark ≠ [] → sumScores (infer m remark) = 1) := by
  rw [train_eq] at hm
  obtain rfl : m = trainT log rows := (Option.some.inj hm).symm
  constructor
  · intro p hp
    unfold infer at hp
    by_cases hw : extract_words remark = []
    · rw [if_pos hw] at hp
      simp at hp
    · rw [if_neg hw] at hp
      by_cases hs : 0 < sumScores (taskScoresOf (trainT log rows).word_entries
          (extract_words remark).length (wordFreqOf (extract_words remark)))
      · rw [if_pos hs] at hp
        rcases List.mem_map.mp hp with ⟨q, hq, rfl⟩
        exact div_nonneg
          (taskScoresOf_nonneg _ _
            (fun w e he => trainT_idf_nonneg log hlog rows w e he) _ q hq)
          (le_of_lt hs)
      · rw [if_neg hs] at hp
        simp at hp
  · intro hne
    rcases infer_eq_empty_or_sum_one (trainT log rows) remark with h | h
    · exact absurd h hne
    · exact h

def baseTW : List (String × Word) := (rowsW.foldl trainRowT ⟨0, []⟩).word_entries

/-- Evaluation of the inference engine on the concrete witness model. -/
theorem infer_mW_eval : infer mW "alpha beta" = [("t1", 1), ("t2", 0)] := by
  have htab : mW.word_entries = computeIdf logW 2 baseTW := rfl
  have hqw : extract_words "alpha beta" = ["alpha", "beta"] := by decide
  have hwa : mapGet (computeIdf logW 2 baseTW) "alpha" =
      some ⟨"alpha", 2, 1, [("t1", 2)],
        some (logW (((2:Nat):ℚ) / ((1:Nat):ℚ)))⟩ := rfl
  have hwb : mapGet (computeIdf logW 2 baseTW) "beta" =
      some ⟨"beta", 2, 2, [("t1", 1), ("t2", 1)],
        some (logW (((2:Nat):ℚ) / ((2:Nat):ℚ)))⟩ := rfl
  have ha : logW (((2:Nat):ℚ) / ((1:Nat):ℚ)) = 1 := by norm_num [logW]
  have hb : logW (((2:Nat):ℚ) / ((2:Nat):ℚ)) = 0 := by norm_num [logW]
  unfold infer
  rw [htab, hqw]
  rw [if_neg (by decide : ¬ (["alpha", "beta"] : List String) = [])]
  have hwf : wordFreqOf ["alpha", "beta"] = [("alpha", 1), ("beta", 1)] := rfl
  have hlen : (["alpha", "beta"] : List String).length = 2 := rfl
  rw [hwf, hlen]
  have hts : taskScoresOf (computeIdf logW 2 baseTW) 2
      [("alpha", 1), ("beta", 1)] = [("t1", 1), ("t2", 0)] := by
    simp only [taskScoresOf, List.foldl_cons, List.foldl_nil, scoreWord,
      hwa, hwb, ha, hb]
    simp [mapGet, mapSet]
  rw [hts]
  have hsum : sumScores [(("t1" : String), (1:ℚ)), (("t2" : String), (0:ℚ))] = 1 := by
    simp [sumScores]
  rw [hsum, if_pos one_pos]
  norm_num

theorem infer_prob_distribution_witness :
    sumScores (infer mW "alpha beta") = 1 :=
  (infer_prob_distribution logW
    (fun q hq => by simpa [logW] using sub_nonneg.mpr hq)
    rowsW mW (by rfl) "alpha beta").2
    (by rw [infer_mW_eval]; simp)

/-! ### Graceful degradation of the inference engine -/

theorem scoreWord_none {table : List (String × Word)} {total : Nat}
    {scores : List (String × ℚ)} {wf : String × Nat}
    (h : mapGet table wf.1 = none) :
    scoreWord table total scores wf = scores := by
  unfold scoreWord
  rw [h]

theorem foldl_wordFreq_keys (ws : List String) :
    ∀ (acc : List (String × Nat)) (p : String × Nat),
      p ∈ ws.foldl (fun m w => mapSet m w ((mapGet m w).getD 0 + 1)) acc →
        p ∈ acc ∨ p.1 ∈ ws := by
  induction ws with
  | nil =>
    intro acc p hp
    exact Or.inl hp
  | cons u rest ih =>
    intro acc p hp
    rw [List.foldl_cons] at hp
    rcases ih _ p hp with h | h
    · rcases mem_mapSet h with rfl | h2
      · exact Or.inr (by simp)
      · exact Or.inl h2
    · exact Or.inr (List.mem_cons_of_mem _ h)

theorem taskScoresOf_unknown (table : List (String × Word)) (total : Nat)
    (wfs : List (String × Nat)) (h : ∀ p ∈ wfs, mapGet table p.1 = none) :
    taskScoresOf table total wfs = [] := by
  unfold taskScoresOf
  induction wfs with
  | nil => rfl
  | cons wf rest ih =>
    rw [List.foldl_cons, scoreWord_none (h wf (List.mem_cons_self _ _))]
    exact ih (fun p hp => h p (List.mem_cons_of_mem _ hp))

theorem foldl_scoreWord_filter (table : List (String × Word)) (total : Nat)
    (wfs : List (String × Nat)) :
    ∀ scores : List (String × ℚ),
      (wfs.filter (fun p => (mapGet table p.1).isSome)).foldl
          (scoreWord table total) scores =
        wfs.foldl (scoreWord table total) scores := by
  induction wfs with
  | nil => intro scores; rfl
  | cons wf rest ih =>
    intro scores
    cases hg : mapGet table wf.1 with
    | none =>
      have hf : (wf :: rest).filter (fun p => (mapGet table p.1).isSome) =
          rest.filter (fun p => (mapGet table p.1).isSome) := by
        simp [List.filter_cons, hg]
      rw [hf, List.foldl_cons, scoreWord_none hg, ih]
    | some e =>
      have hf : (wf :: rest).filter (fun p => (mapGet table p.1).isSome) =
          wf :: rest.filter (fun p => (mapGet table p.1).isSome) := by
        simp [List.filter_cons, hg]
      rw [hf, List.foldl_cons, List.foldl_cons, ih]

/-- C5: the inference engine never raises — an empty token list, a remark all
of whose tokens are unknown, and a zero aggregate score each yield the empty
distribution, and unknown words contribute nothing to any task's score
(dropping them from the word-frequency table leaves the task scores
unchanged). -/
theorem infer_no_raise (m : TrainState) (remark : String) :
    (extract_words remark = [] → infer m remark = []) ∧
    ((∀ w ∈ extract_words remark, mapGet m.word_entries w = none) →
      infer m remark = []) ∧
    (sumScores (taskScoresOf m.word_entries (extract_words remark).length
        (wordFreqOf (extract_words remark))) = 0 → infer m remark = []) ∧
    (∀ (total : Nat) (wf : List (String × Nat)),
      taskScoresOf m.word_entries total
          (wf.filter (fun p => (mapGet m.word_entries p.1).isSome)) =
        taskScoresOf m.word_entries total wf) := by
  refine ⟨?_, ?_, ?_, ?_⟩
  · intro hw
    unfold infer
    rw [if_pos hw]
  · intro hunk
    unfold infer
    by_cases hw : extract_words remark = []
    · rw [if_pos hw]
    · rw [if_neg hw]
      have hts : taskScoresOf m.word_entries (extract_words remark).length
          (wordFreqOf (extract_words remark)) = [] := by
        apply taskScoresOf_unknown
        intro p hp
        apply hunk p.1
        rcases foldl_wordFreq_keys (extract_words remark) [] p hp with h | h
        · simp at h
        · exact h
      rw [hts]
      rw [if_neg (by rw [show sumScores [] = 0 from rfl]; exact lt_irrefl 0)]
  · intro h0
    unfold infer
    by_cases hw : extract_words remark = []
    · rw [if_pos hw]
    · rw [if_neg hw, if_neg (by rw [h0]; exact lt_irrefl 0)]
  · intro total wf
    unfold taskScoresOf
    exact foldl_scoreWord_filter m.word_entries total wf []

theorem infer_no_raise_witness :
    infer mW "the of on" = [] ∧
    infer mW "zzz qqq" = [] ∧
    infer (⟨2, []⟩ : TrainState) "alpha" = [] ∧
    taskScoresOf mW.word_entries 1
        ([(("zzz" : String), 1)].filter
          (fun p => (mapGet mW.word_entries p.1).isSome)) =
      taskScoresOf mW.word_entries 1 [(("zzz" : String), 1)] :=
  ⟨(infer_no_raise mW "the of on").1 (by decide),
   (infer_no_raise mW "zzz qqq").2.1 (by decide),
   (infer_no_raise (⟨2, []⟩ : TrainState) "alpha").2.2.1 (by decide),
   (infer_no_raise mW "x").2.2.2 1 [(("zzz" : String), 1)]⟩

/-! ### The two-row training/inference scenario -/

def rows9 : List Row :=
  [⟨"website", "implement email subscribe form"⟩,
   ⟨"animal-ai", "team: demo sofia and lanna on box model training"⟩]

def query9 : String := "team: demo to lanna and sofia on colab box model training"

def baseT9 : List (String × Word) := (rows9.foldl trainRowT ⟨0, []⟩).word_entries

/-- C9: training on the two labeled rows and inferring on the overlapping
remark yields the distribution `[("animal-ai", 1)]`: `animal-ai` is the
top-ranked candidate and the only task with a non-zero probability (the other
task, `website`, shares no content word with the query and receives no entry
at all).  The only property of the real logarithm used is `ln 2 > 0`. -/
theorem infer_scenario_animal_ai (log : ℚ → ℚ) (hlog : 0 < log 2)
    (m : TrainState) (hm : train log rows9 = some m) :
    infer m query9 = [("animal-ai", 1)] := by
  rw [train_eq] at hm
  obtain rfl : m = trainT log rows9 := (Option.some.inj hm).symm
  have htab : (trainT log rows9).word_entries = computeIdf log 2 baseT9 := rfl
  have hqw : extract_words query9 =
      ["team:", "demo", "lanna", "sofia", "colab", "box", "model", "training"] := by
    decide
  have hw1 : mapGet (computeIdf log 2 baseT9) "team:" =
      some ⟨"team:", 1, 1, [("animal-ai", 1)],
        some (log (((2:Nat):ℚ) / ((1:Nat):ℚ)))⟩ := rfl
  have hw2 : mapGet (computeIdf log 2 baseT9) "demo" =
      some ⟨"demo", 1, 1, [("animal-ai", 1)],
        some (log (((2:Nat):ℚ) / ((1:Nat):ℚ)))⟩ := rfl
  have hw3 : mapGet (computeIdf log 2 baseT9) "lanna" =
      some ⟨"lanna", 1, 1, [("animal-ai", 1)],
        some (log (((2:Nat):ℚ) / ((1:Nat):ℚ)))⟩ := rfl
  have hw4 : mapGet (computeIdf log 2 baseT9) "sofia" =
      some ⟨"sofia", 1, 1, [("animal-ai", 1)],
        some (log (((2:Nat):ℚ) / ((1:Nat):ℚ)))⟩ := rfl
  have hw5 : mapGet (computeIdf log 2 baseT9) "box" =
      some ⟨"box", 1, 1, [("animal-ai", 1)],
        some (log (((2:Nat):ℚ) / ((1:Nat):ℚ)))⟩ := rfl
  have hw6 : mapGet (computeIdf log 2 baseT9) "model" =
      some ⟨"model", 1, 1, [("animal-ai", 1)],
        some (log (((2:Nat):ℚ) / ((1:Nat):ℚ)))⟩ := rfl
  have hw7 : mapGet (computeIdf log 2 baseT9) "training" =
      some ⟨"training", 1, 1, [("animal-ai", 1)],
        some (log (((2:Nat):ℚ) / ((1:Nat):ℚ)))⟩ := rfl
  have hw8 : mapGet (computeIdf log 2 baseT9) "colab" = none := rfl
  have hlog2 : log (((2:Nat):ℚ) / ((1:Nat):ℚ)) = log 2 := by norm_num
  unfold infer
  rw [htab, hqw]
  rw [if_neg (by decide :
    ¬ (["team:", "demo", "lanna", "sofia", "colab", "box", "model",
        "training"] : List String) = [])]
  have hwf : wordFreqOf
      ["team:", "demo", "lanna", "sofia", "colab", "box", "model", "training"] =
      [("team:", 1), ("demo", 1), ("lanna", 1), ("sofia", 1), ("colab", 1),
       ("box", 1), ("model", 1), ("training", 1)] := rfl
  have hlen : (["team:", "demo", "lanna", "sofia", "colab", "box", "model",
      "training"] : List String).length = 8 := rfl
  rw [hwf, hlen]
  have hts : taskScoresOf (computeIdf log 2 baseT9) 8
      [("team:", 1), ("demo", 1), ("lanna", 1), ("sofia", 1), ("colab", 1),
       ("box", 1), ("model", 1), ("training", 1)] =
      [("animal-ai", 7/8 * log 2)] := by
    simp only [taskScoresOf, List.foldl_cons, List.foldl_nil, scoreWord,
      hw1, hw2, hw3, hw4, hw5, hw6, hw7, hw8, hlog2]
    simp [mapGet, mapSet]
    ring
  rw [hts]
  have hsum : sumScores [(("animal-ai" : String), 7/8 * log 2)] =
      7/8 * log 2 := by
    simp [sumScores]
  rw [hsum]
  have hpos : (0:ℚ) < 7/8 * log 2 := by
    apply mul_pos
    · norm_num
    · exact hlog
  rw [if_pos hpos]
  simp [div_self (ne_of_gt hpos)]

def mW9 : TrainState := (train logW rows9).getD ⟨0, []⟩

theorem infer_scenario_animal_ai_witness :
    infer mW9 query9 = [("animal-ai", 1)] :=
  infer_scenario_animal_ai logW (by norm_num [logW]) mW9 (by rfl)

end Timesheet
